import Mathlib

/-!
Shallow embedding of the hrgraph heart-rate-graphing tool (hrgraph.js) and
verification of its specification claims.

The pipeline in `main` is: parse each input file (TCX markup or JSON cache),
concatenate all per-file sample lists, sort by timestamp, optionally smooth,
derive the second-of-day for each sample, filter by start/end time of day,
compute global min/max bounds, and partition into per-calendar-day buckets.

Modelling conventions:
- JS numbers holding epoch milliseconds and heart rates are modelled as `Int`;
  the derived `daysecond` (seconds since local midnight) is a `Nat`.
- Local time is modelled as a fixed-offset (UTC) zone, so the calendar day of
  a timestamp is its floor-quotient by 86400000 ms and the second of day comes
  from its nonnegative remainder.
- `Array.prototype.sort` with the comparator `dp1.timestamp - dp2.timestamp`
  is a stable sort by timestamp (ES2019 requires sort stability); it is
  modelled by a stable structural insertion sort, whose output any stable
  sort by the same key produces.
-/

namespace Hrgraph

/-- A heart-rate datapoint, as produced by the parsers and flowing through the
pipeline.  In the source these are plain objects `{hr, timestamp}` that later
gain a `daysecond` property; samples before the derivation step carry
`daysecond = 0`, mirroring an absent property that nothing reads. -/
structure Dp where
  timestamp : Int
  hr : Int
  daysecond : Nat
deriving DecidableEq

/-- Timestamp comparison used by the aggregator sort, from the comparator
`dp1.timestamp - dp2.timestamp` in `main`. -/
def tsLE (a b : Dp) : Prop := a.timestamp ≤ b.timestamp

instance : DecidableRel tsLE := fun a b => inferInstanceAs (Decidable (a.timestamp ≤ b.timestamp))

/-- Stable insertion of a datapoint into an already-sorted list: `dp` goes
after every element with a strictly smaller timestamp and before every
element with an equal or larger one (earlier input elements with equal
timestamps stay in front). -/
def insertByTs (dp : Dp) : List Dp → List Dp
  | [] => [dp]
  | x :: xs => if x.timestamp < dp.timestamp then x :: insertByTs dp xs else dp :: x :: xs

/-- Stable sort by ascending timestamp, the model of
`datapoints.sort(function(dp1, dp2) \x7b return dp1.timestamp - dp2.timestamp; \x7d)`. -/
def sortByTs (l : List Dp) : List Dp := l.foldr insertByTs []

/-- Aggregator: `var datapoints = [].concat(...dp_lists);` followed by the
stable timestamp sort (main, lines 204-207). -/
def aggregate (dp_lists : List (List Dp)) : List Dp := sortByTs dp_lists.flatten

/-- Keep-condition of the smoother (from the `if` in `smooth`): the candidate
is kept when its timestamp is strictly more than `secs` seconds (`secs * 1000`
ms) after the last kept sample's, or its heart rate differs from the last kept
sample's by more than 5. -/
def smoothKeep (secs : Int) (prev dp : Dp) : Bool :=
  decide (prev.timestamp + secs * 1000 < dp.timestamp) || decide ((dp.hr - prev.hr).natAbs > 5)

/-- Loop body of `smooth`: walks the remaining datapoints carrying the last
kept sample `prev`, keeping exactly those satisfying `smoothKeep` (and making
each kept sample the new `prev`). -/
def smoothLoop (secs : Int) : Dp → List Dp → List Dp
  | _, [] => []
  | prev, dp :: rest =>
    if smoothKeep secs prev dp then dp :: smoothLoop secs dp rest
    else smoothLoop secs prev rest

/-- Smoother (`smooth` in the source): `prev` and `res` start from
`datapoints[0]`, then the loop runs over the whole `datapoints` list
(including the first element again).  The empty-input case, where the source
would read `datapoints[0]` as `undefined`, is modelled as the empty list. -/
def smooth (datapoints : List Dp) (secs : Int) : List Dp :=
  match datapoints with
  | [] => []
  | first :: _ => first :: smoothLoop secs first datapoints

/-- Second of day of a timestamp (main, lines 212-215):
`getHours() * 3600 + getMinutes() * 60 + getSeconds()` of the local `Date`,
with local time modelled as UTC; the Euclidean remainder keeps the value in
`[0, 86400000)` for negative timestamps exactly as `Date` does. -/
def daySecondOf (t : Int) : Nat := ((t.emod 86400000).ediv 1000).toNat

/-- Derivation step of main: set `dp.daysecond` on every datapoint. -/
def deriveDaySecond (dps : List Dp) : List Dp :=
  dps.map (fun dp => { dp with daysecond := daySecondOf dp.timestamp })

/-- Start-of-window filter (main, lines 217-219).  The guard `if (start_time)`
uses JS truthiness, so both a missing `--start-time` (`null`) and a bound of
`0` seconds skip the filter entirely. -/
def applyStartFilter (start_time : Option Nat) (dps : List Dp) : List Dp :=
  match start_time with
  | none => dps
  | some st => if st = 0 then dps else dps.filter (fun dp => decide (st ≤ dp.daysecond))

/-- End-of-window filter (main, lines 220-222), with the same JS-truthiness
guard `if (end_time)`: a bound of `0` seconds skips the filter. -/
def applyEndFilter (end_time : Option Nat) (dps : List Dp) : List Dp :=
  match end_time with
  | none => dps
  | some en => if en = 0 then dps else dps.filter (fun dp => decide (dp.daysecond ≤ en))

/-- Smoothing step of main (lines 208-210): `if (argv.smooth)` is again a JS
truthiness test, so `--smooth 0` (or an absent flag) leaves the data
unchanged. -/
def smoothStage (smoothArg : Option Int) (dps : List Dp) : List Dp :=
  match smoothArg with
  | none => dps
  | some k => if k = 0 then dps else smooth dps k

/-- Digit value of a character. -/
def digitVal (c : Char) : Nat := c.toNat - 48

/-- Whether a character is an ASCII decimal digit. -/
def isDigitCh (c : Char) : Bool := decide ('0' ≤ c) && decide (c ≤ '9')

/-- Consume one or two leading decimal digits (the greedy `[0-9]\x7b1,2\x7d` of
`_parse_time`), returning their value and the rest of the input, or `none`
when the input does not start with a digit. -/
def takeDigits12 : List Char → Option (Nat × List Char)
  | [] => none
  | c1 :: rest =>
    if isDigitCh c1 then
      match rest with
      | c2 :: rest2 =>
        if isDigitCh c2 then some (digitVal c1 * 10 + digitVal c2, rest2)
        else some (digitVal c1, rest)
      | [] => some (digitVal c1, [])
    else none

/-- Time-of-day parsing (`_parse_time`): the anchored pattern
`HH:MM` or `HH:MM:SS` with one- or two-digit components, returning
`hours * 3600 + minutes * 60 + seconds`; `none` models the thrown
`Invalid time` error. -/
def parse_time (s : List Char) : Option Nat :=
  match takeDigits12 s with
  | none => none
  | some (h, r1) =>
    match r1 with
    | ':' :: r2 =>
      match takeDigits12 r2 with
      | none => none
      | some (m, r3) =>
        match r3 with
        | [] => some (h * 3600 + m * 60)
        | ':' :: r4 =>
          match takeDigits12 r4 with
          | none => none
          | some (sec, r5) => if r5 = [] then some (h * 3600 + m * 60 + sec) else none
        | _ => none
    | _ => none

/-- Command-line options relevant to the pipeline: `--smooth`, `--start-time`
and `--end-time`, each already brought into numeric form (`none` = flag
absent). -/
structure Args where
  smoothArg : Option Int
  startTime : Option Nat
  endTime : Option Nat
deriving DecidableEq

/-- The sample-processing part of `main` (lines 204-222), written exactly in
the source's statement order: concatenate, sort, optionally smooth, derive
`daysecond`, then apply the start and end time-of-day filters. -/
def mainPipeline (a : Args) (dp_lists : List (List Dp)) : List Dp :=
  let datapoints := dp_lists.flatten
  let datapoints := sortByTs datapoints
  let datapoints :=
    match a.smoothArg with
    | none => datapoints
    | some k => if k = 0 then datapoints else smooth datapoints k
  let datapoints := deriveDaySecond datapoints
  let datapoints := applyStartFilter a.startTime datapoints
  applyEndFilter a.endTime datapoints

/-- Modelled from the spec: the spec's stated control flow applies the Time
Filter to the aggregated sequence first and the Smoother after it
("Aggregator merges and sorts → Time Filter → Smoother"); this definition
follows the spec's words for comparison against `mainPipeline`. -/
def pipelineSpecOrder (a : Args) (dp_lists : List (List Dp)) : List Dp :=
  smoothStage a.smoothArg
    (applyEndFilter a.endTime
      (applyStartFilter a.startTime
        (deriveDaySecond (aggregate dp_lists))))

/-- Calendar-day key of a timestamp (`splitDays`, line 87: the local
`YYYY-MM-DD` string): with local time modelled as UTC, two timestamps get the
same key exactly when they have the same floor-quotient by 86400000 ms, so
the key is modelled by that quotient. -/
def dayKey (t : Int) : Int := t.ediv 86400000

/-- A per-day bucket (`\x7bdate, data\x7d` in `splitDays`): the day key stands
for the `date`/dictionary-key of the bucket. -/
structure DayBucket where
  key : Int
  data : List Dp
deriving DecidableEq

/-- Append a datapoint to the bucket with the given day key, or append a new
bucket at the end when no bucket has that key (the `data_by_day` dictionary
lookup plus `res.push` of `splitDays`; dictionary keys are unique, so the
first key match is the only one). -/
def addToBucket : List DayBucket → Int → Dp → List DayBucket
  | [], k, dp => [⟨k, [dp]⟩]
  | b :: bs, k, dp =>
    if b.key = k then ⟨b.key, b.data ++ [dp]⟩ :: bs
    else b :: addToBucket bs k dp

/-- Loop of `splitDays` over the datapoints, carrying the bucket list. -/
def splitDaysGo (acc : List DayBucket) : List Dp → List DayBucket
  | [] => acc
  | dp :: rest => splitDaysGo (addToBucket acc (dayKey dp.timestamp) dp) rest

/-- Day Partitioner (`splitDays`, lines 82-103). -/
def splitDays (datapoints : List Dp) : List DayBucket := splitDaysGo [] datapoints

/-- Minimum over a list in first-to-last reduction order, the model of
`d3.min`: `undefined` (here `none`) on an empty input. -/
def d3min {α : Type} [LinearOrder α] (l : List α) : Option α :=
  l.foldl (fun acc v => match acc with | none => some v | some m => some (min m v)) none

/-- Maximum over a list, the model of `d3.max`: `undefined` (`none`) on an
empty input. -/
def d3max {α : Type} [LinearOrder α] (l : List α) : Option α :=
  l.foldl (fun acc v => match acc with | none => some v | some m => some (max m v)) none

/-- The four global bounds computed in main (lines 224-227); each is `none`
when the datapoint list is empty, as `d3.min`/`d3.max` return `undefined`
there. -/
structure Bounds where
  min_daysecond : Option Nat
  max_daysecond : Option Nat
  min_hr : Option Int
  max_hr : Option Int
deriving DecidableEq

/-- Bounds computation of main (lines 224-227). -/
def computeBounds (dps : List Dp) : Bounds :=
  ⟨d3min (dps.map (·.daysecond)), d3max (dps.map (·.daysecond)),
   d3min (dps.map (·.hr)), d3max (dps.map (·.hr))⟩

/-- The whitespace class of the JS regex `\s`, restricted to the characters
the source can meet: space, tab, line feed, carriage return, vertical tab,
form feed, no-break space and the BOM. -/
def isJsWhitespace (c : Char) : Bool :=
  c == ' ' || c == '\t' || c == '\n' || c == '\r'
    || c.toNat == 11 || c.toNat == 12 || c.toNat == 160 || c.toNat == 65279

/-- Drop the leading whitespace of the content, the `\s*` of the dispatch
regex `^\s*<`. -/
def skipWs : List Char → List Char
  | [] => []
  | c :: rest => if isJsWhitespace c then skipWs rest else c :: rest

/-- First non-whitespace character of the content, if any. -/
def firstNonWs (content : List Char) : Option Char := (skipWs content).head?

/-- Which branch of `parseFile` (lines 49-68) handles a file content. -/
inductive Route
  | markup
  | cache
  | unrecognized
deriving DecidableEq

/-- Format dispatch of `parseFile`: `/^\s*</` routes to the XML/TCX branch;
otherwise `/^\\x7b/` (a brace as the very first character, no whitespace
skipping) routes to the JSON-cache branch; otherwise the
`Unknown file format` error. -/
def dispatch (content : List Char) : Route :=
  if (skipWs content).head? = some '<' then .markup
  else if content.head? = some '{' then .cache
  else .unrecognized

/-- One `Trackpoint` element as seen by `parseTcx`: `timeText` is the text of
its first `Time` descendant (`none` when there is no `Time` element, in which
case the source reads `textContent` of `undefined` and throws), and `hrValue`
is the parsed `Value` of its first `HeartRateBpm` descendant (`none` when
`getElementsByTagName('HeartRateBpm')` is empty). -/
structure Trackpoint where
  timeText : Option String
  hrValue : Option Int
deriving DecidableEq

/-- The one abort the TCX loop can raise: the `TypeError` thrown when a
trackpoint has no `Time` element. -/
inductive TcxError
  | missingTime
deriving DecidableEq

/-- A sample as pushed by `parseTcx`: the timestamp is `none` when
`Date.parse` returned `NaN` (an unparseable time string), which the source
stores without complaint. -/
structure TcxSample where
  timestamp : Option Int
  hr : Int
deriving DecidableEq

/-- The `parseTcx` loop over the trackpoints of a document, parameterised by
the `Date.parse` oracle (`none` = `NaN`): reading the time of a trackpoint
with no `Time` element throws; a trackpoint without a `HeartRateBpm` element
is skipped by `continue`; otherwise a sample is pushed, whatever
`Date.parse` returned. -/
def parseTcx (dateParse : String → Option Int) : List Trackpoint → Except TcxError (List TcxSample)
  | [] => .ok []
  | tp :: rest =>
    match tp.timeText with
    | none => .error .missingTime
    | some timeStr =>
      match tp.hrValue with
      | none => parseTcx dateParse rest
      | some h =>
        match parseTcx dateParse rest with
        | .error e => .error e
        | .ok samples => .ok (⟨dateParse timeStr, h⟩ :: samples)

/-- A JSON value, for the cache branch of `parseFile`. -/
inductive Json
  | null
  | bool (b : Bool)
  | num (n : Int)
  | str (s : String)
  | arr (elements : List Json)
  | obj (fields : List (String × Json))

/-- JS truthiness of a parsed JSON value (the `if (!doc)` test). -/
def jsTruthy : Json → Bool
  | .null => false
  | .bool b => b
  | .num n => n != 0
  | .str s => s != ""
  | .arr _ => true
  | .obj _ => true

/-- JS property access `doc.datapoints`: the first field of that name of an
object, `undefined` (`none`) otherwise. -/
def getField (j : Json) (key : String) : Option Json :=
  match j with
  | .obj fields => (fields.find? (fun f => f.1 == key)).map (·.2)
  | _ => none

/-- How the cache branch of `parseFile` can fail: `JSON.parse` throwing a
`SyntaxError` (which propagates as an uncaught exception), or the
`Failed to parse JSON file` error produced for a falsy parse result. -/
inductive CacheFailure
  | parseException
  | invalidCache
deriving DecidableEq

/-- The JSON-cache branch of `parseFile` (lines 58-63), parameterised by the
outcome of `JSON.parse` (`none` = it threw): a falsy document is rejected as
`invalidCache`, and otherwise `doc.datapoints` is handed back verbatim —
with no check that the field exists or is a sequence. -/
def cacheBranch (parsed : Option Json) : Except CacheFailure (Option Json) :=
  match parsed with
  | none => .error .parseException
  | some doc =>
    if jsTruthy doc then .ok (getField doc "datapoints")
    else .error .invalidCache

theorem insertByTs_perm (dp : Dp) (l : List Dp) : (insertByTs dp l).Perm (dp :: l) := by
  induction l with
  | nil => simp [insertByTs]
  | cons x xs ih =>
    simp only [insertByTs]
    split
    · exact (ih.cons x).trans (List.Perm.swap dp x xs)
    · exact List.Perm.refl _

theorem sortByTs_perm (l : List Dp) : (sortByTs l).Perm l := by
  induction l with
  | nil => simp [sortByTs]
  | cons x xs ih => exact (insertByTs_perm x (sortByTs xs)).trans (ih.cons x)

theorem insertByTs_pairwise (dp : Dp) (l : List Dp) (h : l.Pairwise tsLE) :
    (insertByTs dp l).Pairwise tsLE := by
  induction l with
  | nil => simp [insertByTs, List.pairwise_singleton]
  | cons x xs ih =>
    simp only [insertByTs]
    rw [List.pairwise_cons] at h
    split
    · rename_i hx
      rw [List.pairwise_cons]
      refine ⟨fun b hb => ?_, ih h.2⟩
      rcases List.mem_cons.mp ((insertByTs_perm dp xs).mem_iff.mp hb) with hb | hb
      · subst hb; exact le_of_lt hx
      · exact h.1 b hb
    · rename_i hx
      rw [List.pairwise_cons]
      refine ⟨fun b hb => ?_, List.pairwise_cons.mpr h⟩
      rcases List.mem_cons.mp hb with hb | hb
      · subst hb; exact le_of_not_lt hx
      · exact le_trans (le_of_not_lt hx) (h.1 b hb)

theorem sortByTs_pairwise (l : List Dp) : (sortByTs l).Pairwise tsLE := by
  induction l with
  | nil => simp [sortByTs]
  | cons x xs ih => exact insertByTs_pairwise x (sortByTs xs) ih

theorem filter_insertByTs (p : Dp → Bool) (dp : Dp) (l : List Dp)
    (hmono : ∀ a b : Dp, p a = true → p b = true → a.timestamp = b.timestamp) :
    (insertByTs dp l).filter p = if p dp then dp :: l.filter p else l.filter p := by
  induction l with
  | nil => simp [insertByTs, List.filter_cons]
  | cons x xs ih =>
    simp only [insertByTs]
    by_cases hlt : x.timestamp < dp.timestamp
    · rw [if_pos hlt]
      by_cases hpx : p x = true
      · by_cases hpd : p dp = true
        · exact absurd (hmono x dp hpx hpd) (ne_of_lt hlt)
        · simp [List.filter_cons, hpx, hpd, ih]
      · simp [List.filter_cons, hpx, ih]
    · rw [if_neg hlt, List.filter_cons]

theorem filter_sortByTs (p : Dp → Bool) (l : List Dp)
    (hmono : ∀ a b : Dp, p a = true → p b = true → a.timestamp = b.timestamp) :
    (sortByTs l).filter p = l.filter p := by
  induction l with
  | nil => rfl
  | cons x xs ih =>
    show (insertByTs x (sortByTs xs)).filter p = _
    rw [filter_insertByTs p x (sortByTs xs) hmono, List.filter_cons]
    split <;> simp_all

/-- C1: the Aggregator (concatenation in file order, then the stable timestamp
sort) returns a sequence that is non-decreasing in timestamp, is a
permutation of the concatenated input (no sample dropped or deduplicated),
and, for every timestamp value, lists the samples carrying that timestamp in
exactly the concatenated-input order (stability). -/
theorem aggregate_sorted_stable (dp_lists : List (List Dp)) :
    (aggregate dp_lists).Pairwise (fun a b => a.timestamp ≤ b.timestamp)
    ∧ (aggregate dp_lists).Perm dp_lists.flatten
    ∧ ∀ t : Int, (aggregate dp_lists).filter (fun s => s.timestamp == t)
        = dp_lists.flatten.filter (fun s => s.timestamp == t) := by
  refine ⟨sortByTs_pairwise _, sortByTs_perm _, fun t => ?_⟩
  apply filter_sortByTs
  intro a b ha hb
  have ha' : a.timestamp = t := by simpa using ha
  have hb' : b.timestamp = t := by simpa using hb
  rw [ha', hb']

theorem smoothLoop_sublist (secs : Int) (prev : Dp) (l : List Dp) :
    (smoothLoop secs prev l).Sublist l := by
  induction l generalizing prev with
  | nil => simp [smoothLoop]
  | cons dp rest ih =>
    simp only [smoothLoop]
    split
    · exact (ih dp).cons₂ dp
    · exact (ih prev).cons dp

theorem smoothLoop_chain (secs : Int) (prev : Dp) (l : List Dp) :
    List.Chain (fun a b => smoothKeep secs a b = true) prev (smoothLoop secs prev l) := by
  induction l generalizing prev with
  | nil => simp [smoothLoop]
  | cons dp rest ih =>
    simp only [smoothLoop]
    split
    · rename_i hk
      exact List.Chain.cons hk (ih dp)
    · exact ih prev

/-- C2 (amended): for positive `minGapSeconds` and non-empty input, `smooth`
keeps the first sample; the loop over the remaining samples keeps a sample
exactly when its timestamp is strictly more than `minGapSeconds` after the
last kept sample's or its heart rate differs from the last kept sample's by
more than 5 (`smoothLoop` is literally that greedy recursion, started from
the first sample); every adjacent pair of the output satisfies that
condition; and the output is a subsequence of the input starting with the
first element. -/
theorem smooth_greedy_spec (secs : Int) (hsecs : 0 < secs) (first : Dp) (rest : List Dp) :
    smooth (first :: rest) secs = first :: smoothLoop secs first rest
    ∧ (smooth (first :: rest) secs).head? = some first
    ∧ (smooth (first :: rest) secs).Sublist (first :: rest)
    ∧ List.Chain' (fun a b => a.timestamp + secs * 1000 < b.timestamp
        ∨ (b.hr - a.hr).natAbs > 5) (smooth (first :: rest) secs) := by
  have hfirst : smoothKeep secs first first = false := by
    simp only [smoothKeep, Bool.or_eq_false_iff, decide_eq_false_iff_not, not_lt]
    constructor
    · nlinarith [first.timestamp]
    · simp
  have heq : smooth (first :: rest) secs = first :: smoothLoop secs first rest := by
    simp [smooth, smoothLoop, hfirst]
  refine ⟨heq, by rw [heq]; rfl, ?_, ?_⟩
  · rw [heq]
    exact (smoothLoop_sublist secs first rest).cons₂ first
  · rw [heq]
    show List.Chain _ first (smoothLoop secs first rest)
    exact (smoothLoop_chain secs first rest).imp
      (fun a b hab => by simpa [smoothKeep, decide_eq_true_eq] using hab)

/-- C2 counterexample: the claim keeps a sample whose timestamp is exactly
`minGapSeconds` after the last kept sample's ("at least"), but the source
condition `prev.timestamp + (secs * 1000) < dp.timestamp` is strict, so with
`minGapSeconds = 10` a second sample exactly 10 s (10000 ms) after the first,
with equal heart rate, is dropped. -/
theorem smooth_at_least_counterexample :
    (0 : Int) + 10 * 1000 ≤ (⟨10000, 100, 0⟩ : Dp).timestamp
    ∧ smooth [⟨0, 100, 0⟩, ⟨10000, 100, 0⟩] 10 = [⟨0, 100, 0⟩] := by
  constructor
  · decide
  · decide

/-- C3 (amended): with `daysecond` values (which are naturals, as derived
values always are), an absent bound filters nothing; a given `startSecond`
drops exactly the samples with `daysecond < startSecond` (for
`startSecond = 0` the guard skips the filter, which coincides with the
vacuous filter); a given nonzero `endSecond` drops exactly the samples with
`daysecond > endSecond`.  Both bounds are inclusive and applied
independently. -/
theorem timeFilter_drops_exactly (dps : List Dp) (st en : Nat) (hen : en ≠ 0) :
    applyStartFilter none dps = dps
    ∧ applyStartFilter (some st) dps = dps.filter (fun dp => decide (st ≤ dp.daysecond))
    ∧ applyEndFilter none dps = dps
    ∧ applyEndFilter (some en) dps = dps.filter (fun dp => decide (dp.daysecond ≤ en)) := by
  refine ⟨rfl, ?_, rfl, ?_⟩
  · by_cases hst : st = 0
    · subst hst
      show dps = _
      exact (List.filter_eq_self.mpr (fun a _ => by simp)).symm
    · simp [applyStartFilter, hst]
  · simp [applyEndFilter, hen]

/-- C3 witness, at the spec's own example: `startSecond = 21600`,
`endSecond = 36000`, a sample with `daysecond = 36000` is retained (inclusive
upper bound) and one with `daysecond = 36001` is dropped. -/
theorem timeFilter_drops_exactly_witness :
    (36000 : Nat) ≠ 0
    ∧ applyEndFilter (some 36000) [⟨0, 0, 36000⟩, ⟨0, 0, 36001⟩]
        = List.filter (fun dp => decide (dp.daysecond ≤ 36000)) [⟨0, 0, 36000⟩, ⟨0, 0, 36001⟩]
    ∧ applyEndFilter (some 36000) [⟨0, 0, 36000⟩, ⟨0, 0, 36001⟩] = [⟨0, 0, 36000⟩] :=
  ⟨by decide,
   (timeFilter_drops_exactly [⟨0, 0, 36000⟩, ⟨0, 0, 36001⟩] 21600 36000 (by decide)).2.2.2,
   by decide⟩

/-- C3 counterexample: the claim says a given `endSecond` always drops
exactly the samples with `daysecond > endSecond`, but for the given bound
`endSecond = 0` the truthiness guard skips the filter, so a sample with
`daysecond = 1 > 0` is retained rather than dropped. -/
theorem endFilter_zero_counterexample :
    applyEndFilter (some 0) [⟨0, 0, 1⟩] = [⟨0, 0, 1⟩]
    ∧ List.filter (fun dp => decide (dp.daysecond ≤ 0)) [(⟨0, 0, 1⟩ : Dp)] = [] := by
  exact ⟨by decide, by decide⟩

/-- C10: a supplied time bound that parses to 0 seconds (such as `0:00`) is
falsy, so the corresponding filter is skipped entirely; in particular an end
bound of 0 does not drop a sample with `daysecond = 1 > 0`. -/
theorem zero_time_bound_no_filter :
    parse_time ("0:00".toList) = some 0
    ∧ (∀ dps : List Dp, applyStartFilter (some 0) dps = dps)
    ∧ (∀ dps : List Dp, applyEndFilter (some 0) dps = dps)
    ∧ applyEndFilter (some 0) [⟨0, 0, 1⟩] = [⟨0, 0, 1⟩] :=
  ⟨by decide, fun _ => rfl, fun _ => rfl, rfl⟩

theorem smoothKeep_derive (secs : Int) (a b : Dp) :
    smoothKeep secs { a with daysecond := daySecondOf a.timestamp }
        { b with daysecond := daySecondOf b.timestamp } = smoothKeep secs a b := rfl

theorem smoothLoop_derive (secs : Int) (prev : Dp) (l : List Dp) :
    (smoothLoop secs prev l).map (fun dp => { dp with daysecond := daySecondOf dp.timestamp })
      = smoothLoop secs { prev with daysecond := daySecondOf prev.timestamp }
          (l.map (fun dp => { dp with daysecond := daySecondOf dp.timestamp })) := by
  induction l generalizing prev with
  | nil => rfl
  | cons dp rest ih =>
    simp only [List.map_cons, smoothLoop, smoothKeep_derive]
    split
    · simp [ih]
    · exact ih prev

theorem deriveDaySecond_smooth (l : List Dp) (secs : Int) :
    deriveDaySecond (smooth l secs) = smooth (deriveDaySecond l) secs := by
  cases l with
  | nil => rfl
  | cons first rest =>
    simp only [deriveDaySecond, smooth, List.map_cons, smoothLoop_derive]

theorem deriveDaySecond_smoothStage (k : Option Int) (l : List Dp) :
    deriveDaySecond (smoothStage k l) = smoothStage k (deriveDaySecond l) := by
  cases k with
  | none => rfl
  | some v =>
    simp only [smoothStage]
    split
    · rfl
    · exact deriveDaySecond_smooth l v

/-- C4 (amended): in `main` the Smoother runs before the `daysecond`
derivation and the Time Filter, so the pipeline factors as Aggregator →
Smoother → derivation → Time Filter (start then end); when no time bound is
given the result coincides with the spec's Time-Filter-before-Smoother
order, because smoothing only reads `timestamp` and `hr`, which the
derivation preserves. -/
theorem pipeline_smoother_before_filter (a : Args) (dp_lists : List (List Dp)) :
    mainPipeline a dp_lists
      = applyEndFilter a.endTime (applyStartFilter a.startTime
          (deriveDaySecond (smoothStage a.smoothArg (aggregate dp_lists))))
    ∧ (a.startTime = none → a.endTime = none →
        mainPipeline a dp_lists = pipelineSpecOrder a dp_lists) := by
  have hfactor : mainPipeline a dp_lists
      = applyEndFilter a.endTime (applyStartFilter a.startTime
          (deriveDaySecond (smoothStage a.smoothArg (aggregate dp_lists)))) := by
    cases h : a.smoothArg <;> simp [mainPipeline, smoothStage, aggregate, h]
  refine ⟨hfactor, fun h1 h2 => ?_⟩
  rw [hfactor, h1, h2]
  show deriveDaySecond (smoothStage a.smoothArg (aggregate dp_lists)) = _
  rw [deriveDaySecond_smoothStage]
  simp [pipelineSpecOrder, h1, h2, applyStartFilter, applyEndFilter]

/-- C4 witness: with `--smooth 2` and no time bounds, the two pipeline orders
agree on a concrete input. -/
theorem pipeline_smoother_before_filter_witness :
    mainPipeline ⟨some 2, none, none⟩ [[⟨0, 100, 0⟩]]
      = pipelineSpecOrder ⟨some 2, none, none⟩ [[⟨0, 100, 0⟩]] :=
  (pipeline_smoother_before_filter ⟨some 2, none, none⟩ [[⟨0, 100, 0⟩]]).2 rfl rfl

/-- C4 counterexample: with `--smooth 10` and `startSecond = 1`, the code's
order (smooth, then filter) yields the empty sequence on two samples 1 s
apart with equal heart rate — smoothing first collapses them to the first
sample, which the filter then drops — while the spec's claimed order (filter,
then smooth) keeps the second sample.  The Time Filter is therefore not
applied before the Smoother. -/
theorem pipeline_order_counterexample :
    mainPipeline ⟨some 10, some 1, none⟩ [[⟨0, 100, 0⟩, ⟨1000, 100, 0⟩]] = []
    ∧ pipelineSpecOrder ⟨some 10, some 1, none⟩ [[⟨0, 100, 0⟩, ⟨1000, 100, 0⟩]]
        = [⟨1000, 100, 1⟩] := by
  exact ⟨by decide, by decide⟩

theorem addToBucket_of_not_mem (bs : List DayBucket) (k : Int) (dp : Dp)
    (h : k ∉ bs.map DayBucket.key) : addToBucket bs k dp = bs ++ [⟨k, [dp]⟩] := by
  induction bs with
  | nil => rfl
  | cons b rest ih =>
    simp only [List.map_cons, List.mem_cons] at h
    push_neg at h
    simp only [addToBucket, List.cons_append]
    rw [if_neg (fun he => h.1 he.symm), ih h.2]

theorem addToBucket_last (bs : List DayBucket) (k : Int) (data : List Dp) (dp : Dp)
    (h : k ∉ bs.map DayBucket.key) :
    addToBucket (bs ++ [⟨k, data⟩]) k dp = bs ++ [⟨k, data ++ [dp]⟩] := by
  induction bs with
  | nil => simp [addToBucket]
  | cons b rest ih =>
    simp only [List.map_cons, List.mem_cons] at h
    push_neg at h
    simp only [List.cons_append, addToBucket, List.append_eq]
    rw [if_neg (fun he => h.1 he.symm), ih h.2]

theorem last_bucket_of_mem (bs : List DayBucket) (k : Int)
    (hmem : k ∈ bs.map DayBucket.key)
    (hpw : bs.Pairwise (fun b c => b.key < c.key))
    (hub : ∀ b ∈ bs, b.key ≤ k) :
    ∃ bs' data, bs = bs' ++ [⟨k, data⟩] ∧ k ∉ bs'.map DayBucket.key := by
  induction bs with
  | nil => simp at hmem
  | cons b rest ih =>
    rw [List.pairwise_cons] at hpw
    by_cases hbk : b.key = k
    · have hrest : rest = [] := by
        cases hr : rest with
        | nil => rfl
        | cons c cs =>
          exfalso
          have h1 : b.key < c.key := hpw.1 c (by simp [hr])
          have h2 : c.key ≤ k := hub c (by simp [hr])
          omega
      refine ⟨[], b.data, ?_, by simp⟩
      subst hrest
      cases b
      simp_all
    · have hmem' : k ∈ rest.map DayBucket.key := by
        simp only [List.map_cons, List.mem_cons] at hmem
        rcases hmem with h | h
        · exact absurd h.symm hbk
        · exact h
      obtain ⟨bs', data, heq, hnot⟩ :=
        ih hmem' hpw.2 (fun c hc => hub c (List.mem_cons_of_mem _ hc))
      refine ⟨b :: bs', data, by simp [heq], ?_⟩
      simp only [List.map_cons, List.mem_cons]
      push_neg
      exact ⟨fun he => hbk he.symm, hnot⟩

theorem splitDaysGo_spec (l : List Dp) : ∀ (acc : List DayBucket),
    acc.Pairwise (fun b c => b.key < c.key) →
    (∀ b ∈ acc, ∀ dp ∈ b.data, dayKey dp.timestamp = b.key) →
    (∀ b ∈ acc, b.data ≠ []) →
    l.Pairwise (fun x y => dayKey x.timestamp ≤ dayKey y.timestamp) →
    (∀ b ∈ acc, ∀ x ∈ l, b.key ≤ dayKey x.timestamp) →
    (splitDaysGo acc l).Pairwise (fun b c => b.key < c.key)
    ∧ (∀ b ∈ splitDaysGo acc l, ∀ dp ∈ b.data, dayKey dp.timestamp = b.key)
    ∧ (∀ b ∈ splitDaysGo acc l, b.data ≠ [])
    ∧ ((splitDaysGo acc l).map DayBucket.data).flatten
        = (acc.map DayBucket.data).flatten ++ l := by
  induction l with
  | nil =>
    intro acc hpw hhom hne _ _
    exact ⟨hpw, hhom, hne, by simp [splitDaysGo]⟩
  | cons dp rest ih =>
    intro acc hpw hhom hne hl hge
    rw [List.pairwise_cons] at hl
    simp only [splitDaysGo]
    by_cases hk : dayKey dp.timestamp ∈ acc.map DayBucket.key
    · obtain ⟨bs', data, heq, hnot⟩ := last_bucket_of_mem acc _ hk hpw
        (fun b hb => hge b hb dp (List.mem_cons_self _ _))
      subst heq
      rw [addToBucket_last bs' _ data dp hnot]
      rw [List.pairwise_append] at hpw
      obtain ⟨hpw1, _, hcross⟩ := hpw
      have hres := ih (bs' ++ [⟨dayKey dp.timestamp, data ++ [dp]⟩])
        (by
          rw [List.pairwise_append]
          refine ⟨hpw1, List.pairwise_singleton _ _, fun a ha c hc => ?_⟩
          rw [List.mem_singleton] at hc
          subst hc
          exact hcross a ha ⟨dayKey dp.timestamp, data⟩ (List.mem_singleton.mpr rfl))
        (by
          intro b hb dp' hdp'
          rcases List.mem_append.mp hb with hb | hb
          · exact hhom b (List.mem_append_left _ hb) dp' hdp'
          · rw [List.mem_singleton] at hb
            subst hb
            rcases List.mem_append.mp hdp' with hdp' | hdp'
            · exact hhom ⟨dayKey dp.timestamp, data⟩
                (List.mem_append_right _ (List.mem_singleton.mpr rfl)) dp' hdp'
            · rw [List.mem_singleton] at hdp'
              subst hdp'
              rfl)
        (by
          intro b hb
          rcases List.mem_append.mp hb with hb | hb
          · exact hne b (List.mem_append_left _ hb)
          · rw [List.mem_singleton] at hb
            subst hb
            simp)
        hl.2
        (by
          intro b hb x hx
          rcases List.mem_append.mp hb with hb | hb
          · exact hge b (List.mem_append_left _ hb) x (List.mem_cons_of_mem _ hx)
          · rw [List.mem_singleton] at hb
            subst hb
            exact hl.1 x hx)
      refine ⟨hres.1, hres.2.1, hres.2.2.1, ?_⟩
      rw [hres.2.2.2]
      simp [List.map_append, List.flatten_append, List.append_assoc]
    · rw [addToBucket_of_not_mem acc _ dp hk]
      have hres := ih (acc ++ [⟨dayKey dp.timestamp, [dp]⟩])
        (by
          rw [List.pairwise_append]
          refine ⟨hpw, List.pairwise_singleton _ _, fun a ha c hc => ?_⟩
          rw [List.mem_singleton] at hc
          subst hc
          refine lt_of_le_of_ne (hge a ha dp (List.mem_cons_self _ _)) (fun he => hk ?_)
          have he' : a.key = dayKey dp.timestamp := he
          rw [← he']
          exact List.mem_map_of_mem DayBucket.key ha)
        (by
          intro b hb dp' hdp'
          rcases List.mem_append.mp hb with hb | hb
          · exact hhom b hb dp' hdp'
          · rw [List.mem_singleton] at hb
            subst hb
            rw [List.mem_singleton] at hdp'
            subst hdp'
            rfl)
        (by
          intro b hb
          rcases List.mem_append.mp hb with hb | hb
          · exact hne b hb
          · rw [List.mem_singleton] at hb
            subst hb
            simp)
        hl.2
        (by
          intro b hb x hx
          rcases List.mem_append.mp hb with hb | hb
          · exact hge b hb x (List.mem_cons_of_mem _ hx)
          · rw [List.mem_singleton] at hb
            subst hb
            exact hl.1 x hx)
      refine ⟨hres.1, hres.2.1, hres.2.2.1, ?_⟩
      rw [hres.2.2.2]
      simp [List.map_append, List.flatten_append, List.append_assoc]

theorem buckets_filter_eq (bks : List DayBucket) (b : DayBucket) (hb : b ∈ bks)
    (hpw : bks.Pairwise (fun x y => x.key < y.key))
    (hhom : ∀ c ∈ bks, ∀ dp ∈ c.data, dayKey dp.timestamp = c.key) :
    ((bks.map DayBucket.data).flatten).filter (fun dp => decide (dayKey dp.timestamp = b.key))
      = b.data := by
  induction bks with
  | nil => simp at hb
  | cons c rest ih =>
    rw [List.pairwise_cons] at hpw
    simp only [List.map_cons, List.flatten_cons, List.filter_append]
    rcases List.mem_cons.mp hb with rfl | hbr
    · have hcd : b.data.filter (fun dp => decide (dayKey dp.timestamp = b.key)) = b.data :=
        List.filter_eq_self.mpr
          (fun dp hdp => by simp [hhom b (List.mem_cons_self b rest) dp hdp])
      have hrest : ((rest.map DayBucket.data).flatten).filter
          (fun dp => decide (dayKey dp.timestamp = b.key)) = [] := by
        rw [List.filter_eq_nil_iff]
        intro dp hdp
        obtain ⟨ld, hld, hdpl⟩ := List.mem_flatten.mp hdp
        obtain ⟨c', hc', rfl⟩ := List.mem_map.mp hld
        have hck := hhom c' (List.mem_cons_of_mem _ hc') dp hdpl
        have hlt := hpw.1 c' hc'
        simp only [hck, decide_eq_true_eq]
        omega
      rw [hcd, hrest, List.append_nil]
    · have hcd : c.data.filter (fun dp => decide (dayKey dp.timestamp = b.key)) = [] := by
        rw [List.filter_eq_nil_iff]
        intro dp hdp
        have hck := hhom c (List.mem_cons_self c rest) dp hdp
        have hlt := hpw.1 b hbr
        simp only [hck, decide_eq_true_eq]
        omega
      rw [hcd, List.nil_append]
      exact ih hbr hpw.2 (fun c' hc' => hhom c' (List.mem_cons_of_mem _ hc'))

/-- C5: on a timestamp-sorted input, the Day Partitioner produces buckets
with pairwise distinct, strictly increasing day keys (one bucket per distinct
calendar day, appended in first-encounter and hence chronological order);
concatenating the buckets' sample lists in bucket order reproduces the input
exactly; and each bucket is non-empty and holds exactly the input samples of
its day, in input order — so every sample lies in exactly one bucket. -/
theorem splitDays_partition (dps : List Dp)
    (hsort : dps.Pairwise (fun a b => a.timestamp ≤ b.timestamp)) :
    ((splitDays dps).map DayBucket.data).flatten = dps
    ∧ (splitDays dps).Pairwise (fun b c => b.key < c.key)
    ∧ ∀ b ∈ splitDays dps, b.data ≠ []
        ∧ b.data = dps.filter (fun dp => decide (dayKey dp.timestamp = b.key)) := by
  have hl : dps.Pairwise (fun x y => dayKey x.timestamp ≤ dayKey y.timestamp) :=
    hsort.imp (fun h => Int.ediv_le_ediv (by norm_num) h)
  obtain ⟨h1, h2, h3, h4⟩ :=
    splitDaysGo_spec dps [] (by simp) (by simp) (by simp) hl (by simp)
  have hflat : ((splitDays dps).map DayBucket.data).flatten = dps := by
    simpa [splitDays] using h4
  refine ⟨hflat, h1, fun b hb => ⟨h3 b hb, ?_⟩⟩
  rw [← hflat]
  exact (buckets_filter_eq (splitDays dps) b hb h1 h2).symm

/-- C5 witness: a concrete sorted two-sample input spanning two calendar
days. -/
theorem splitDays_partition_witness :
    ((splitDays [⟨0, 100, 0⟩, ⟨86400000, 120, 0⟩]).map DayBucket.data).flatten
        = [⟨0, 100, 0⟩, ⟨86400000, 120, 0⟩]
    ∧ (splitDays [⟨0, 100, 0⟩, ⟨86400000, 120, 0⟩]).Pairwise (fun b c => b.key < c.key)
    ∧ ∀ b ∈ splitDays [⟨0, 100, 0⟩, ⟨86400000, 120, 0⟩], b.data ≠ []
        ∧ b.data = List.filter (fun dp => decide (dayKey dp.timestamp = b.key))
            [⟨0, 100, 0⟩, ⟨86400000, 120, 0⟩] :=
  splitDays_partition [⟨0, 100, 0⟩, ⟨86400000, 120, 0⟩] (by decide)

/-- C2 witness: the smoother's guarantees at a concrete two-sample input with
`minGapSeconds = 10`. -/
theorem smooth_greedy_spec_witness :
    smooth [⟨0, 100, 0⟩, ⟨20000, 100, 0⟩] 10
        = ⟨0, 100, 0⟩ :: smoothLoop 10 ⟨0, 100, 0⟩ [⟨20000, 100, 0⟩]
    ∧ (smooth [⟨0, 100, 0⟩, ⟨20000, 100, 0⟩] 10).head? = some ⟨0, 100, 0⟩
    ∧ (smooth [⟨0, 100, 0⟩, ⟨20000, 100, 0⟩] 10).Sublist [⟨0, 100, 0⟩, ⟨20000, 100, 0⟩]
    ∧ List.Chain' (fun a b => a.timestamp + 10 * 1000 < b.timestamp
        ∨ (b.hr - a.hr).natAbs > 5) (smooth [⟨0, 100, 0⟩, ⟨20000, 100, 0⟩] 10) :=
  smooth_greedy_spec 10 (by decide) ⟨0, 100, 0⟩ [⟨20000, 100, 0⟩]

/-- C6 (amended): the markup branch is taken exactly when the first
non-whitespace character is `<`; the cache branch is taken exactly when the
very first character is `\x7b` (the `^\\x7b` pattern does not skip leading
whitespace); everything else is the `Unknown file format` error.  The two
branches are mutually exclusive, so content routed to one never reaches the
other. -/
theorem dispatch_routes (content : List Char) :
    (dispatch content = Route.markup ↔ firstNonWs content = some '<')
    ∧ (dispatch content = Route.cache ↔ content.head? = some '{')
    ∧ (dispatch content = Route.unrecognized ↔
        (firstNonWs content ≠ some '<' ∧ content.head? ≠ some '{')) := by
  have hbrace : content.head? = some '{' → (skipWs content).head? = some '{' := by
    intro h
    cases content with
    | nil => simp at h
    | cons c rest =>
      simp only [List.head?_cons, Option.some_inj] at h
      subst h
      simp [skipWs, isJsWhitespace]
  by_cases h1 : (skipWs content).head? = some '<'
  · have h2 : content.head? ≠ some '{' := by
      intro hc
      rw [hbrace hc] at h1
      exact absurd h1 (by decide)
    simp [dispatch, firstNonWs, h1, h2]
  · by_cases h2 : content.head? = some '{'
    · simp [dispatch, firstNonWs, h1, h2]
    · simp [dispatch, firstNonWs, h1, h2]

/-- C6 counterexample: content consisting of a space followed by a brace has
`\x7b` as its first non-whitespace character, yet it is not routed to the
cache parser — it falls through to the `Unknown file format` error, because
the cache test `^\\x7b` requires the brace to be the very first character. -/
theorem dispatch_ws_brace_counterexample :
    dispatch [' ', '{'] = Route.unrecognized ∧ firstNonWs [' ', '{'] = some '{' :=
  ⟨by decide, by decide⟩

/-- C7 (amended): a trackpoint with a readable time and no heart-rate element
contributes zero samples and raises no error; a trackpoint with no `Time`
element at all aborts parsing of the whole file; but a trackpoint whose time
string merely fails to parse (`Date.parse` returns `NaN`) is not an error —
it contributes a sample with a `NaN` timestamp. -/
theorem parseTcx_trackpoint_behaviour (dateParse : String → Option Int)
    (tp : Trackpoint) (rest : List Trackpoint) :
    (∀ s, tp.timeText = some s → tp.hrValue = none →
        parseTcx dateParse (tp :: rest) = parseTcx dateParse rest)
    ∧ (tp.timeText = none → parseTcx dateParse (tp :: rest) = .error .missingTime)
    ∧ (∀ s h, tp.timeText = some s → tp.hrValue = some h → dateParse s = none →
        parseTcx dateParse (tp :: rest)
          = (parseTcx dateParse rest).map (fun samples => ⟨none, h⟩ :: samples)) := by
  refine ⟨?_, ?_, ?_⟩
  · intro s hs hh
    simp [parseTcx, hs, hh]
  · intro hs
    simp [parseTcx, hs]
  · intro s h hs hh hd
    simp only [parseTcx, hs, hh, hd]
    cases parseTcx dateParse rest <;> simp [Except.map]

/-- C7 witness: the three behaviours at concrete one-trackpoint inputs, with
a `Date.parse` oracle that always fails. -/
theorem parseTcx_trackpoint_behaviour_witness :
    parseTcx (fun _ => none) [⟨some "x", none⟩] = parseTcx (fun _ => none) []
    ∧ parseTcx (fun _ => none) [⟨none, some 80⟩] = Except.error TcxError.missingTime
    ∧ parseTcx (fun _ => none) [⟨some "x", some 80⟩]
        = (parseTcx (fun _ => none) ([] : List Trackpoint)).map
            (fun samples => ⟨none, 80⟩ :: samples) :=
  ⟨(parseTcx_trackpoint_behaviour (fun _ => none) ⟨some "x", none⟩ []).1 "x" rfl rfl,
   (parseTcx_trackpoint_behaviour (fun _ => none) ⟨none, some 80⟩ []).2.1 rfl,
   (parseTcx_trackpoint_behaviour (fun _ => none) ⟨some "x", some 80⟩ []).2.2 "x" 80 rfl rfl rfl⟩

/-- C7 counterexample: the claim calls an unparseable time string a fatal
error aborting the file, but the source stores the `NaN` from `Date.parse`
and pushes the sample: parsing succeeds with one `NaN`-timestamped sample. -/
theorem parseTcx_nan_counterexample :
    parseTcx (fun _ => none) [⟨some "garbage", some 100⟩]
      = Except.ok [⟨none, 100⟩] := rfl

/-- C8 (amended): a document on which `JSON.parse` throws fails with the
propagated parse exception (which is not the `invalidCache` error); a parse
result that is falsy fails with `invalidCache`; but a JSON object with no
`datapoints` field is not an error — the branch succeeds returning the
undefined field — and when `datapoints` is present its value is returned
verbatim, with no validation of its entries. -/
theorem cacheBranch_behaviour :
    cacheBranch none = Except.error CacheFailure.parseException
    ∧ CacheFailure.parseException ≠ CacheFailure.invalidCache
    ∧ (∀ doc, jsTruthy doc = false →
        cacheBranch (some doc) = Except.error CacheFailure.invalidCache)
    ∧ (∀ fields, (fields.find? (fun f => f.1 == "datapoints")) = none →
        cacheBranch (some (Json.obj fields)) = Except.ok none)
    ∧ (∀ entries fields,
        cacheBranch (some (Json.obj (("datapoints", Json.arr entries) :: fields)))
          = Except.ok (some (Json.arr entries))) := by
  refine ⟨rfl, by simp, ?_, ?_, ?_⟩
  · intro doc hd
    simp [cacheBranch, hd]
  · intro fields hf
    simp [cacheBranch, jsTruthy, getField, hf]
  · intro entries fields
    simp [cacheBranch, jsTruthy, getField, List.find?]

/-- C8 witness: a falsy parse result is rejected as `invalidCache`, and an
object without `datapoints` succeeds with the undefined field. -/
theorem cacheBranch_behaviour_witness :
    cacheBranch (some (Json.num 0)) = Except.error CacheFailure.invalidCache
    ∧ cacheBranch (some (Json.obj [("other", Json.null)])) = Except.ok none :=
  ⟨cacheBranch_behaviour.2.2.1 (Json.num 0) rfl,
   cacheBranch_behaviour.2.2.2.1 [("other", Json.null)] rfl⟩

/-- C8 counterexample: the claim says a JSON object without a `datapoints`
field fails with the `InvalidCache` error, but the source performs no such
check: on the object `\x7b\x7d` the cache branch succeeds, handing back the
undefined `datapoints` field. -/
theorem cacheBranch_missing_datapoints_counterexample :
    cacheBranch (some (Json.obj [])) = Except.ok none
    ∧ cacheBranch (some (Json.obj [])) ≠ Except.error CacheFailure.invalidCache :=
  ⟨rfl, by simp [cacheBranch, jsTruthy, getField]⟩

theorem foldlMin_some {α : Type} [LinearOrder α] (l : List α) (a : α) :
    l.foldl (fun acc v => match acc with | none => some v | some m => some (min m v)) (some a)
      = some (l.foldl min a) := by
  induction l generalizing a with
  | nil => rfl
  | cons x xs ih => simp [List.foldl_cons, ih]

theorem foldlMax_some {α : Type} [LinearOrder α] (l : List α) (a : α) :
    l.foldl (fun acc v => match acc with | none => some v | some m => some (max m v)) (some a)
      = some (l.foldl max a) := by
  induction l generalizing a with
  | nil => rfl
  | cons x xs ih => simp [List.foldl_cons, ih]

theorem foldl_min_le {α : Type} [LinearOrder α] (xs : List α) (a : α) :
    xs.foldl min a ≤ a ∧ ∀ x ∈ xs, xs.foldl min a ≤ x := by
  induction xs generalizing a with
  | nil => simp
  | cons x xs ih =>
    obtain ⟨h1, h2⟩ := ih (min a x)
    refine ⟨le_trans h1 (min_le_left a x), fun y hy => ?_⟩
    rcases List.mem_cons.mp hy with rfl | hy
    · exact le_trans h1 (min_le_right a y)
    · exact h2 y hy

theorem foldl_max_ge {α : Type} [LinearOrder α] (xs : List α) (a : α) :
    a ≤ xs.foldl max a ∧ ∀ x ∈ xs, x ≤ xs.foldl max a := by
  induction xs generalizing a with
  | nil => simp
  | cons x xs ih =>
    obtain ⟨h1, h2⟩ := ih (max a x)
    refine ⟨le_trans (le_max_left a x) h1, fun y hy => ?_⟩
    rcases List.mem_cons.mp hy with rfl | hy
    · exact le_trans (le_max_right a y) h1
    · exact h2 y hy

theorem foldl_min_mem {α : Type} [LinearOrder α] (xs : List α) (a : α) :
    xs.foldl min a = a ∨ xs.foldl min a ∈ xs := by
  induction xs generalizing a with
  | nil => exact Or.inl rfl
  | cons x xs ih =>
    rcases ih (min a x) with h | h
    · rcases min_choice a x with hm | hm
      · exact Or.inl (by rw [List.foldl_cons, h, hm])
      · exact Or.inr (by rw [List.foldl_cons, h, hm]; exact List.mem_cons_self x xs)
    · exact Or.inr (List.mem_cons_of_mem x h)

theorem foldl_max_mem {α : Type} [LinearOrder α] (xs : List α) (a : α) :
    xs.foldl max a = a ∨ xs.foldl max a ∈ xs := by
  induction xs generalizing a with
  | nil => exact Or.inl rfl
  | cons x xs ih =>
    rcases ih (max a x) with h | h
    · rcases max_choice a x with hm | hm
      · exact Or.inl (by rw [List.foldl_cons, h, hm])
      · exact Or.inr (by rw [List.foldl_cons, h, hm]; exact List.mem_cons_self x xs)
    · exact Or.inr (List.mem_cons_of_mem x h)

theorem d3min_spec {α : Type} [LinearOrder α] (y : α) (ys : List α) :
    ∃ m, d3min (y :: ys) = some m ∧ (m = y ∨ m ∈ ys) ∧ m ≤ y ∧ ∀ x ∈ ys, m ≤ x := by
  refine ⟨ys.foldl min y, ?_, foldl_min_mem ys y, (foldl_min_le ys y).1, (foldl_min_le ys y).2⟩
  simp [d3min, List.foldl_cons, foldlMin_some]

theorem d3max_spec {α : Type} [LinearOrder α] (y : α) (ys : List α) :
    ∃ m, d3max (y :: ys) = some m ∧ (m = y ∨ m ∈ ys) ∧ y ≤ m ∧ ∀ x ∈ ys, x ≤ m := by
  refine ⟨ys.foldl max y, ?_, foldl_max_mem ys y, (foldl_max_ge ys y).1, (foldl_max_ge ys y).2⟩
  simp [d3max, List.foldl_cons, foldlMax_some]

/-- C9 (amended): on a non-empty sample list, the bounds computed in main are
the attained global minimum and maximum of `daysecond` and of `hr` across all
samples.  (On an empty list no error is raised; see the counterexample.) -/
theorem computeBounds_minmax (dps : List Dp) (hne : dps ≠ []) :
    ∃ a b c d, computeBounds dps = ⟨some a, some b, some c, some d⟩
      ∧ (∃ s ∈ dps, s.daysecond = a) ∧ (∃ s ∈ dps, s.daysecond = b)
      ∧ (∃ s ∈ dps, s.hr = c) ∧ (∃ s ∈ dps, s.hr = d)
      ∧ ∀ s ∈ dps, a ≤ s.daysecond ∧ s.daysecond ≤ b ∧ c ≤ s.hr ∧ s.hr ≤ d := by
  obtain ⟨x, xs, rfl⟩ := List.exists_cons_of_ne_nil hne
  obtain ⟨a, ha, hamem, hax, haxs⟩ := d3min_spec x.daysecond (xs.map (·.daysecond))
  obtain ⟨b, hb, hbmem, hbx, hbxs⟩ := d3max_spec x.daysecond (xs.map (·.daysecond))
  obtain ⟨c, hc, hcmem, hcx, hcxs⟩ := d3min_spec x.hr (xs.map (·.hr))
  obtain ⟨d, hd, hdmem, hdx, hdxs⟩ := d3max_spec x.hr (xs.map (·.hr))
  have hmemd : ∀ {v : Nat}, (v = x.daysecond ∨ v ∈ xs.map (·.daysecond)) →
      ∃ s ∈ x :: xs, s.daysecond = v := by
    intro v hv
    rcases hv with rfl | hv
    · exact ⟨x, List.mem_cons_self x xs, rfl⟩
    · obtain ⟨s, hs, heq⟩ := List.mem_map.mp hv
      exact ⟨s, List.mem_cons_of_mem x hs, heq⟩
  have hmemh : ∀ {v : Int}, (v = x.hr ∨ v ∈ xs.map (·.hr)) →
      ∃ s ∈ x :: xs, s.hr = v := by
    intro v hv
    rcases hv with rfl | hv
    · exact ⟨x, List.mem_cons_self x xs, rfl⟩
    · obtain ⟨s, hs, heq⟩ := List.mem_map.mp hv
      exact ⟨s, List.mem_cons_of_mem x hs, heq⟩
  refine ⟨a, b, c, d, ?_, hmemd hamem, hmemd hbmem, hmemh hcmem, hmemh hdmem, ?_⟩
  · simp only [computeBounds, List.map_cons]
    rw [ha, hb, hc, hd]
  · intro s hs
    rcases List.mem_cons.mp hs with rfl | hs
    · exact ⟨hax, hbx, hcx, hdx⟩
    · exact ⟨haxs _ (List.mem_map_of_mem _ hs), hbxs _ (List.mem_map_of_mem _ hs),
        hcxs _ (List.mem_map_of_mem _ hs), hdxs _ (List.mem_map_of_mem _ hs)⟩

/-- C9 witness: the attained bounds on a concrete two-sample list. -/
theorem computeBounds_minmax_witness :
    ∃ a b c d, computeBounds [⟨0, 70, 3⟩, ⟨0, 80, 5⟩] = ⟨some a, some b, some c, some d⟩
      ∧ (∃ s ∈ [(⟨0, 70, 3⟩ : Dp), ⟨0, 80, 5⟩], s.daysecond = a)
      ∧ (∃ s ∈ [(⟨0, 70, 3⟩ : Dp), ⟨0, 80, 5⟩], s.daysecond = b)
      ∧ (∃ s ∈ [(⟨0, 70, 3⟩ : Dp), ⟨0, 80, 5⟩], s.hr = c)
      ∧ (∃ s ∈ [(⟨0, 70, 3⟩ : Dp), ⟨0, 80, 5⟩], s.hr = d)
      ∧ ∀ s ∈ [(⟨0, 70, 3⟩ : Dp), ⟨0, 80, 5⟩],
          a ≤ s.daysecond ∧ s.daysecond ≤ b ∧ c ≤ s.hr ∧ s.hr ≤ d :=
  computeBounds_minmax [⟨0, 70, 3⟩, ⟨0, 80, 5⟩] (by decide)

/-- C9 counterexample: the claim says zero samples fail with an `EmptyInput`
error, but the source has no such error: `d3.min`/`d3.max` of an empty list
are `undefined` and the pipeline continues, so the bounds computation on the
empty list returns a value (all four fields undefined) rather than failing. -/
theorem computeBounds_empty_counterexample :
    computeBounds [] = ⟨none, none, none, none⟩ := rfl

end Hrgraph
